import Mathlib

/-!
Verification of the `zap` markdown core (`zap-core/src/markdown.rs` and
`zap-core/src/builder.rs`): a shallow embedding of the document builder
(`get_page_structured` with its `ElementBuilder` stack machine), the HTML
renderer (`render_element` and friends), the home-page hero stripping in
`Site::render_home`, and the slug generator, together with theorems about
the specified behaviour of each.

The external markdown tokenizer (pulldown-cmark) is modelled by the `Tag`
and `Event` types: the builder consumes an already-produced event list.
The external syntax highlighter (syntect) is modelled by an abstract
`Highlighter` record of lookup and highlighting oracles.
-/

namespace Zap

/-- Inline (character-level) content, mirroring `enum InlineElement` in
`markdown.rs`. -/
inductive InlineElement where
  | Text (s : String)
  | Link (text : String) (url : String) (title : Option String)
  | Image (alt : String) (url : String) (title : Option String)
  | Emphasis (level : Nat) (content : List InlineElement)
  | Code (s : String)
  | SoftBreak
  | HardBreak
  | Strikethrough (content : List InlineElement)
deriving Repr

/-- A list item, mirroring `struct ListItem` in `markdown.rs`. -/
structure ListItem' (α : Type) where
  content : List α
  sub_items : List (ListItem' α)
  checked : Option Bool
deriving Repr

abbrev ListItem := ListItem' InlineElement

/-- Block-level content, mirroring `enum PageElement` in `markdown.rs`. -/
inductive PageElement where
  | Heading (level : Nat) (content : List InlineElement)
  | Paragraph (content : List InlineElement)
  | CodeBlock (language : Option String) (content : String)
  | List (items : List ListItem) (ordered : Bool)
  | BlockQuote (content : List PageElement)
  | Table (headers : List (List InlineElement))
          (rows : List (List (List InlineElement)))
  | HorizontalRule
  | Html (content : String)
deriving Repr

/-- The subset of pulldown-cmark `Tag`s that `ElementBuilder::from_tag`
inspects; `Other` stands for any further tag (the `_` arm). -/
inductive Tag where
  | Heading (level : Nat)
  | Paragraph
  | CodeBlockFenced (lang : String)
  | CodeBlockIndented
  | List (start : Option Nat)
  | Item
  | BlockQuote
  | Table
  | TableHead
  | TableRow
  | TableCell
  | Emphasis
  | Strong
  | Strikethrough
  | Link (dest_url : String) (title : String)
  | Image (dest_url : String) (title : String)
  | Other
deriving Repr

/-- The subset of pulldown-cmark `Event`s that `get_page_structured`
inspects; `OtherEvent` stands for the ignored events (the `_` arm). -/
inductive Event where
  | Start (tag : Tag)
  | End
  | Text (s : String)
  | Code (s : String)
  | SoftBreak
  | HardBreak
  | Rule
  | Html (s : String)
  | OtherEvent
deriving Repr

/-- Frame kinds, mirroring `enum BuilderKind` in `markdown.rs`. -/
inductive BuilderKind where
  | Heading (level : Nat)
  | Paragraph
  | CodeBlock (language : Option String)
  | List (ordered : Bool)
  | BlockQuote
  | ListItem (checked : Option Bool)
  | Table
  | TableHead
  | TableRow
  | TableCell
  | Emphasis (level : Nat)
  | Strikethrough
  | Link (url : String) (title : Option String)
  | Image (url : String) (title : Option String)
deriving Repr

/-- Table accumulators, mirroring `struct TableBuilder` in `markdown.rs`
(present on every frame, populated by no code path). -/
structure TableBuilder where
  headers : List (List InlineElement) := []
  rows : List (List (List InlineElement)) := []
  current_row : List (List InlineElement) := []
deriving Repr

/-- An in-progress frame, mirroring `struct ElementBuilder`. -/
structure ElementBuilder where
  kind : BuilderKind
  inline_content : List InlineElement
  block_content : List PageElement
  list_items : List ListItem
  table_data : TableBuilder
deriving Repr

namespace ElementBuilder

/-- Mirror of `ElementBuilder::from_tag`. -/
def fromTag (tag : Tag) : ElementBuilder :=
  let kind : BuilderKind :=
    match tag with
    | .Heading level => .Heading level
    | .Paragraph => .Paragraph
    | .CodeBlockFenced lang =>
        .CodeBlock (if lang = "" then none else some lang)
    | .CodeBlockIndented => .CodeBlock none
    | .List start => .List start.isSome
    | .Item => .ListItem none
    | .BlockQuote => .BlockQuote
    | .Table => .Table
    | .TableHead => .TableHead
    | .TableRow => .TableRow
    | .TableCell => .TableCell
    | .Emphasis => .Emphasis 1
    | .Strong => .Emphasis 2
    | .Strikethrough => .Strikethrough
    | .Link dest_url title =>
        .Link dest_url (if title = "" then none else some title)
    | .Image dest_url title =>
        .Image dest_url (if title = "" then none else some title)
    | .Other => .Paragraph
  { kind := kind
    inline_content := []
    block_content := []
    list_items := []
    table_data := {} }

/-- Mirror of `ElementBuilder::add_inline`. -/
def addInline (b : ElementBuilder) (e : InlineElement) : ElementBuilder :=
  { b with inline_content := b.inline_content ++ [e] }

/-- Mirror of `ElementBuilder::add_child` (only BlockQuote frames store
block children; the List arm and the catch-all arm of the source both do
nothing). -/
def addChild (b : ElementBuilder) (child : Option PageElement) : ElementBuilder :=
  match child with
  | some elem =>
      match b.kind with
      | .BlockQuote => { b with block_content := b.block_content ++ [elem] }
      | _ => b
  | none => b

/-- Mirror of the `CodeBlock` content concatenation inside
`ElementBuilder::build`: `Text` fragments keep their text, every other
inline variant contributes the empty string. -/
def codeText : List InlineElement → String
  | [] => ""
  | .Text s :: rest => s ++ codeText rest
  | _ :: rest => codeText rest

/-- Mirror of `ElementBuilder::build`. -/
def build (b : ElementBuilder) : Option PageElement :=
  match b.kind with
  | .Heading level => some (.Heading level b.inline_content)
  | .Paragraph =>
      if b.inline_content.isEmpty then none
      else some (.Paragraph b.inline_content)
  | .CodeBlock language => some (.CodeBlock language (codeText b.inline_content))
  | .List ordered => some (.List b.list_items ordered)
  | .BlockQuote => some (.BlockQuote b.block_content)
  | .ListItem _ => none
  | _ => none

end ElementBuilder

/-- Mirror of `render_inline_elements_text` applied to one element (the
body of the source loop). -/
def inlineElementText : InlineElement → String
  | .Text s => s
  | .Link text _ _ => text
  | .Image alt _ _ => alt
  | .Emphasis _ content => inlineListText content
  | .Code code => code
  | .SoftBreak => " "
  | .HardBreak => " "
  | .Strikethrough content => inlineListText content
where
  /-- Mirror of `render_inline_elements_text` (flattening to plain text). -/
  inlineListText : List InlineElement → String
    | [] => ""
    | e :: rest => inlineElementText e ++ inlineListText rest

/-- Mirror of `render_inline_elements_text`. -/
def render_inline_elements_text (elements : List InlineElement) : String :=
  inlineElementText.inlineListText elements

/-- The mutable state of the `get_page_structured` loop: the top-level
output and the builder stack (head = top of stack). -/
structure BuildState where
  elements : List PageElement
  stack : List ElementBuilder
deriving Repr

/-- One iteration of the `get_page_structured` event loop. -/
def processEvent (st : BuildState) (ev : Event) : BuildState :=
  match ev with
  | .Start tag => { st with stack := ElementBuilder.fromTag tag :: st.stack }
  | .End =>
      match st.stack with
      | [] => st
      | b :: rest =>
          match b.kind with
          | .ListItem _ =>
              match rest with
              | parent :: rs =>
                  match parent.kind with
                  | .List _ =>
                      { st with stack :=
                          { parent with list_items := parent.list_items ++
                              [{ content := b.inline_content
                                 sub_items := []
                                 checked := none }] } :: rs }
                  | _ => { st with stack := rest }
              | [] => { st with stack := [] }
          | .Emphasis level =>
              match rest with
              | parent :: rs =>
                  let parent' := parent.addInline (.Emphasis level b.inline_content)
                  { st with stack := parent' :: rs }
              | [] => { st with stack := [] }
          | .Strikethrough =>
              match rest with
              | parent :: rs =>
                  let parent' := parent.addInline (.Strikethrough b.inline_content)
                  { st with stack := parent' :: rs }
              | [] => { st with stack := [] }
          | .Link url title =>
              match rest with
              | parent :: rs =>
                  let text := render_inline_elements_text b.inline_content
                  let parent' := parent.addInline (.Link text url title)
                  { st with stack := parent' :: rs }
              | [] => { st with stack := [] }
          | .Image url title =>
              match rest with
              | parent :: rs =>
                  let alt := render_inline_elements_text b.inline_content
                  let parent' := parent.addInline (.Image alt url title)
                  { st with stack := parent' :: rs }
              | [] => { st with stack := [] }
          | _ =>
              let element := b.build
              match rest with
              | [] =>
                  { st with
                    stack := []
                    elements := st.elements ++ element.toList }
              | parent :: rs =>
                  { st with stack := parent.addChild element :: rs }
  | .Text s =>
      match st.stack with
      | [] => st
      | b :: rest => { st with stack := b.addInline (.Text s) :: rest }
  | .Code s =>
      match st.stack with
      | [] => st
      | b :: rest => { st with stack := b.addInline (.Code s) :: rest }
  | .SoftBreak =>
      match st.stack with
      | [] => st
      | b :: rest => { st with stack := b.addInline .SoftBreak :: rest }
  | .HardBreak =>
      match st.stack with
      | [] => st
      | b :: rest => { st with stack := b.addInline .HardBreak :: rest }
  | .Rule => { st with elements := st.elements ++ [.HorizontalRule] }
  | .Html s => { st with elements := st.elements ++ [.Html s] }
  | .OtherEvent => st

/-- The initial loop state of `get_page_structured`. -/
def initState : BuildState := { elements := [], stack := [] }

/-- Running the `get_page_structured` loop over an event list. -/
def runEvents (events : List Event) : BuildState :=
  events.foldl processEvent initState

/-- Mirror of `get_page_structured`, starting from the tokenizer's event
list (the file reading and parsing that precede the loop are external). -/
def get_page_structured (events : List Event) : List PageElement :=
  (runEvents events).elements

/-- The event stream the tokenizer produces for the table
`| A |` / `| 1 |` (one header cell, one body row with one cell): a
well-formed, correctly nested table event sequence. -/
def tableEvents : List Event :=
  [.Start .Table, .Start .TableHead, .Start .TableCell, .Text "A", .End, .End,
   .Start .TableRow, .Start .TableCell, .Text "1", .End, .End, .End]

/-- An `End` event hitting an empty builder stack leaves the state
untouched (`stack.pop()` returns `None` and the arm does nothing). -/
theorem processEvent_end_empty_stack (st : BuildState) (h : st.stack = []) :
    processEvent st Event.End = st := by
  obtain ⟨els, stk⟩ := st
  simp only at h
  subst h
  rfl

/-- Claim C1 (code evaluated at the failing input): the builder never
finalizes a Table frame — `ElementBuilder::build` returns `None` for the
`Table` kind (the `_` arm), `add_child` ignores table children, and the
`TableBuilder` accumulators are never populated — so the well-formed
table event sequence `tableEvents` produces an empty top-level output
instead of a `Table` element. -/
theorem table_frame_never_finalized :
    get_page_structured tableEvents = [] ∧
    (ElementBuilder.fromTag Tag.Table).build = none ∧
    (ElementBuilder.fromTag Tag.TableHead).build = none ∧
    (ElementBuilder.fromTag Tag.TableRow).build = none ∧
    (ElementBuilder.fromTag Tag.TableCell).build = none := by
  refine ⟨?_, rfl, rfl, rfl, rfl⟩
  rfl

/-- Claim C3: an extra `End` event at a point where the builder stack is
empty is dropped: the builder does not fail, and the output for the whole
stream equals the output with the orphan `End` removed. -/
theorem orphan_end_dropped (pre post : List Event)
    (h : (runEvents pre).stack = []) :
    get_page_structured (pre ++ Event.End :: post) =
      get_page_structured (pre ++ post) := by
  unfold get_page_structured runEvents at *
  rw [List.foldl_append, List.foldl_append, List.foldl_cons,
    processEvent_end_empty_stack _ h]

/-- Witness for C3 at a concrete stream: a correctly closed heading,
an orphan `End`, then a paragraph; the orphan is dropped and the output
matches the stream without it. -/
theorem orphan_end_dropped_witness :
    (runEvents [.Start (.Heading 1), .Text "t", .End]).stack = [] ∧
    get_page_structured
        ([.Start (.Heading 1), .Text "t", .End] ++ Event.End ::
          [.Start .Paragraph, .Text "x", .End]) =
      get_page_structured
        ([.Start (.Heading 1), .Text "t", .End] ++
          [.Start .Paragraph, .Text "x", .End]) :=
  ⟨by rfl,
   orphan_end_dropped [.Start (.Heading 1), .Text "t", .End]
     [.Start .Paragraph, .Text "x", .End] (by rfl)⟩

/-- Claim C6: closing a list-item frame never emits a standalone top-level
element. The top-level output is unchanged; when the parent frame is a
List, the item's accumulated inline buffer becomes a `ListItem` (with
empty `sub_items` and `checked = none`) appended to the parent's item
buffer; when the parent frame is not a List, or there is no parent, the
item and its content are dropped and building continues. -/
theorem list_item_close (st : BuildState) (b : ElementBuilder)
    (rest : List ElementBuilder) (chk : Option Bool)
    (hs : st.stack = b :: rest) (hk : b.kind = .ListItem chk) :
    (processEvent st Event.End).elements = st.elements ∧
    (rest = [] → (processEvent st Event.End).stack = []) ∧
    (∀ parent rs, rest = parent :: rs →
      (∀ ord, parent.kind = BuilderKind.List ord →
        (processEvent st Event.End).stack =
          { parent with list_items := parent.list_items ++
              [{ content := b.inline_content
                 sub_items := []
                 checked := none }] } :: rs) ∧
      ((∀ ord, parent.kind ≠ BuilderKind.List ord) →
        (processEvent st Event.End).stack = rest)) := by
  obtain ⟨els, stk⟩ := st
  simp only at hs
  subst hs
  simp only [processEvent, hk]
  cases rest with
  | nil => simp
  | cons parent rs =>
      refine ⟨?_, ?_, ?_⟩
      · cases hpk : parent.kind <;> simp [hpk]
      · intro h; cases h
      · intro p q hpq
        cases hpq
        constructor
        · intro ord hord
          simp [hord]
        · intro hne
          cases hpk : parent.kind <;> simp [hpk]
          exact absurd hpk (hne _)

/-- Witness for C6: a concrete state whose top frame is a list item over
a List parent; the close leaves the output untouched and appends the
item to the parent's buffer. -/
theorem list_item_close_witness :
    (processEvent
        { elements := []
          stack :=
            [{ kind := .ListItem none, inline_content := [.Text "a"],
               block_content := [], list_items := [], table_data := {} },
             { kind := BuilderKind.List true, inline_content := [],
               block_content := [], list_items := [], table_data := {} }] }
        Event.End).elements = [] ∧
    (processEvent
        { elements := []
          stack :=
            [{ kind := .ListItem none, inline_content := [.Text "a"],
               block_content := [], list_items := [], table_data := {} },
             { kind := BuilderKind.List true, inline_content := [],
               block_content := [], list_items := [], table_data := {} }] }
        Event.End).stack =
      [{ kind := BuilderKind.List true, inline_content := [],
         block_content := [],
         list_items := [{ content := [.Text "a"], sub_items := [], checked := none }],
         table_data := {} }] :=
  ⟨(list_item_close _ _ _ none rfl rfl).1,
   ((list_item_close _ _ _ none rfl rfl).2.2 _ _ rfl).1 true rfl⟩

/-! Structural invariants of the builder output.  `elemOk` packages the
two facts preserved by every loop step: paragraphs carry non-empty inline
content, and list items carry no sub-items and no checked state. -/

/-- List items as the builder constructs them: empty `sub_items`,
`checked = none`. -/
def itemsFlat (items : List ListItem) : Prop :=
  ∀ it ∈ items, it.sub_items = [] ∧ it.checked = none

mutual

/-- Combined builder-output invariant on one element. -/
def elemOk : PageElement → Prop
  | .Paragraph c => c ≠ []
  | .List items _ => itemsFlat items
  | .BlockQuote content => elemOkList content
  | _ => True

/-- Combined builder-output invariant on an element list. -/
def elemOkList : List PageElement → Prop
  | [] => True
  | e :: rest => elemOk e ∧ elemOkList rest

end

theorem elemOkList_append {l₁ l₂ : List PageElement}
    (h₁ : elemOkList l₁) (h₂ : elemOkList l₂) : elemOkList (l₁ ++ l₂) := by
  induction l₁ with
  | nil => simpa using h₂
  | cons e rest ih =>
      obtain ⟨he, hrest⟩ := h₁
      exact ⟨he, ih hrest⟩

theorem elemOkList_mem {l : List PageElement} (h : elemOkList l) :
    ∀ e ∈ l, elemOk e := by
  induction l with
  | nil => intro e he; cases he
  | cons a rest ih =>
      intro e he
      rcases List.mem_cons.mp he with rfl | hm
      · exact h.1
      · exact ih h.2 e hm

/-- The loop-state invariant: output elements satisfy `elemOk`, and every
stack frame's block-child buffer and item buffer do as well. -/
def stateOk (st : BuildState) : Prop :=
  elemOkList st.elements ∧
  ∀ fr ∈ st.stack, elemOkList fr.block_content ∧ itemsFlat fr.list_items

theorem stateOk_init : stateOk initState := by
  refine ⟨trivial, ?_⟩
  intro fr hfr
  cases hfr

theorem build_elemOk {b : ElementBuilder} (hb : elemOkList b.block_content)
    (hi : itemsFlat b.list_items) :
    ∀ e, b.build = some e → elemOk e := by
  intro e he
  cases hk : b.kind <;> simp only [ElementBuilder.build, hk] at he
  case Heading level =>
      cases he; simp [elemOk]
  case Paragraph =>
      by_cases hc : b.inline_content.isEmpty
      · simp [hc] at he
      · simp [hc] at he
        subst he
        simp only [elemOk]
        intro hnil
        simp [hnil] at hc
  case CodeBlock lang =>
      cases he; simp [elemOk]
  case List ordered =>
      cases he; simpa [elemOk] using hi
  case BlockQuote =>
      cases he; simpa [elemOk] using hb
  all_goals cases he

theorem addChild_ok {b : ElementBuilder} (hb : elemOkList b.block_content)
    (hi : itemsFlat b.list_items) {child : Option PageElement}
    (hc : ∀ e, child = some e → elemOk e) :
    elemOkList (b.addChild child).block_content ∧
      itemsFlat (b.addChild child).list_items := by
  cases child with
  | none => exact ⟨hb, hi⟩
  | some e =>
      cases hk : b.kind <;> simp only [ElementBuilder.addChild, hk]
      case BlockQuote =>
        exact ⟨elemOkList_append hb ⟨hc e rfl, trivial⟩, hi⟩
      all_goals exact ⟨hb, hi⟩

theorem stateOk_step (st : BuildState) (ev : Event) (h : stateOk st) :
    stateOk (processEvent st ev) := by
  obtain ⟨els, stk⟩ := st
  obtain ⟨hels, hstk⟩ := h
  cases ev with
  | Start tag =>
      refine ⟨hels, ?_⟩
      intro fr hfr
      rcases List.mem_cons.mp hfr with rfl | hm
      · exact ⟨trivial, fun it hit => by cases hit⟩
      · exact hstk fr hm
  | End =>
      cases stk with
      | nil => exact ⟨hels, hstk⟩
      | cons b rest =>
          have hb := hstk b (List.mem_cons_self _ _)
          have hrest : ∀ fr ∈ rest, elemOkList fr.block_content ∧ itemsFlat fr.list_items :=
            fun fr hfr => hstk fr (List.mem_cons_of_mem _ hfr)
          cases hk : b.kind <;> simp only [processEvent, hk]
          case ListItem chk =>
              cases rest with
              | nil => exact ⟨hels, fun fr hfr => by cases hfr⟩
              | cons parent rs =>
                  have hparent := hrest parent (List.mem_cons_self _ _)
                  have hrs : ∀ fr ∈ rs, elemOkList fr.block_content ∧ itemsFlat fr.list_items :=
                    fun fr hfr => hrest fr (List.mem_cons_of_mem _ hfr)
                  cases hpk : parent.kind <;> simp only [hpk]
                  case List ordered =>
                      refine ⟨hels, ?_⟩
                      intro fr hfr
                      rcases List.mem_cons.mp hfr with rfl | hm
                      · refine ⟨hparent.1, ?_⟩
                        intro it hit
                        rcases List.mem_append.mp hit with hm' | hm'
                        · exact hparent.2 it hm'
                        · rcases List.mem_singleton.mp hm' with rfl
                          exact ⟨rfl, rfl⟩
                      · exact hrs fr hm
                  all_goals exact ⟨hels, hrest⟩
          case Emphasis level =>
              cases rest with
              | nil => exact ⟨hels, fun fr hfr => by cases hfr⟩
              | cons parent rs =>
                  refine ⟨hels, ?_⟩
                  intro fr hfr
                  rcases List.mem_cons.mp hfr with rfl | hm
                  · exact hrest parent (List.mem_cons_self _ _)
                  · exact hrest fr (List.mem_cons_of_mem _ hm)
          case Strikethrough =>
              cases rest with
              | nil => exact ⟨hels, fun fr hfr => by cases hfr⟩
              | cons parent rs =>
                  refine ⟨hels, ?_⟩
                  intro fr hfr
                  rcases List.mem_cons.mp hfr with rfl | hm
                  · exact hrest parent (List.mem_cons_self _ _)
                  · exact hrest fr (List.mem_cons_of_mem _ hm)
          case Link url title =>
              cases rest with
              | nil => exact ⟨hels, fun fr hfr => by cases hfr⟩
              | cons parent rs =>
                  refine ⟨hels, ?_⟩
                  intro fr hfr
                  rcases List.mem_cons.mp hfr with rfl | hm
                  · exact hrest parent (List.mem_cons_self _ _)
                  · exact hrest fr (List.mem_cons_of_mem _ hm)
          case Image url title =>
              cases rest with
              | nil => exact ⟨hels, fun fr hfr => by cases hfr⟩
              | cons parent rs =>
                  refine ⟨hels, ?_⟩
                  intro fr hfr
                  rcases List.mem_cons.mp hfr with rfl | hm
                  · exact hrest parent (List.mem_cons_self _ _)
                  · exact hrest fr (List.mem_cons_of_mem _ hm)
          all_goals {
            have hbuild : ∀ e, b.build = some e → elemOk e :=
              build_elemOk hb.1 hb.2
            cases rest with
            | nil =>
                refine ⟨?_, fun fr hfr => by cases hfr⟩
                refine elemOkList_append hels ?_
                cases hbe : b.build with
                | none => exact trivial
                | some e => exact ⟨hbuild e hbe, trivial⟩
            | cons parent rs =>
                refine ⟨hels, ?_⟩
                intro fr hfr
                rcases List.mem_cons.mp hfr with rfl | hm
                · exact addChild_ok (hrest parent (List.mem_cons_self _ _)).1
                    (hrest parent (List.mem_cons_self _ _)).2 hbuild
                · exact hrest fr (List.mem_cons_of_mem _ hm)
          }
  | Text s =>
      cases stk with
      | nil => exact ⟨hels, hstk⟩
      | cons b rest =>
          refine ⟨hels, ?_⟩
          intro fr hfr
          rcases List.mem_cons.mp hfr with rfl | hm
          · exact hstk b (List.mem_cons_self _ _)
          · exact hstk fr (List.mem_cons_of_mem _ hm)
  | Code s =>
      cases stk with
      | nil => exact ⟨hels, hstk⟩
      | cons b rest =>
          refine ⟨hels, ?_⟩
          intro fr hfr
          rcases List.mem_cons.mp hfr with rfl | hm
          · exact hstk b (List.mem_cons_self _ _)
          · exact hstk fr (List.mem_cons_of_mem _ hm)
  | SoftBreak =>
      cases stk with
      | nil => exact ⟨hels, hstk⟩
      | cons b rest =>
          refine ⟨hels, ?_⟩
          intro fr hfr
          rcases List.mem_cons.mp hfr with rfl | hm
          · exact hstk b (List.mem_cons_self _ _)
          · exact hstk fr (List.mem_cons_of_mem _ hm)
  | HardBreak =>
      cases stk with
      | nil => exact ⟨hels, hstk⟩
      | cons b rest =>
          refine ⟨hels, ?_⟩
          intro fr hfr
          rcases List.mem_cons.mp hfr with rfl | hm
          · exact hstk b (List.mem_cons_self _ _)
          · exact hstk fr (List.mem_cons_of_mem _ hm)
  | Rule => exact ⟨elemOkList_append hels ⟨trivial, trivial⟩, hstk⟩
  | Html s => exact ⟨elemOkList_append hels ⟨trivial, trivial⟩, hstk⟩
  | OtherEvent => exact ⟨hels, hstk⟩

theorem stateOk_run (events : List Event) : stateOk (runEvents events) := by
  suffices h : ∀ (evs : List Event) (st : BuildState), stateOk st →
      stateOk (evs.foldl processEvent st) from
    h events initState stateOk_init
  intro evs
  induction evs with
  | nil => intro st h; exact h
  | cons e rest ih => intro st h; exact ih _ (stateOk_step st e h)

theorem get_page_structured_elemOk (events : List Event) :
    ∀ e ∈ get_page_structured events, elemOk e :=
  elemOkList_mem (stateOk_run events).1

mutual

/-- No Paragraph anywhere in this element has an empty inline sequence. -/
def noEmptyPara : PageElement → Prop
  | .Paragraph c => c ≠ []
  | .BlockQuote content => noEmptyParaList content
  | _ => True

/-- List version of `noEmptyPara`. -/
def noEmptyParaList : List PageElement → Prop
  | [] => True
  | e :: rest => noEmptyPara e ∧ noEmptyParaList rest

end

mutual

/-- Every list item anywhere in this element has empty `sub_items` and
`checked = none`. -/
def itemsBuilt : PageElement → Prop
  | .List items _ => itemsFlat items
  | .BlockQuote content => itemsBuiltList content
  | _ => True

/-- List version of `itemsBuilt`. -/
def itemsBuiltList : List PageElement → Prop
  | [] => True
  | e :: rest => itemsBuilt e ∧ itemsBuiltList rest

end

mutual

theorem elemOk_noEmptyPara : ∀ (e : PageElement), elemOk e → noEmptyPara e
  | .Paragraph c, h => by simpa [noEmptyPara, elemOk] using h
  | .BlockQuote l, h => by
      have hl := elemOkList_noEmptyParaList l (by simpa [elemOk] using h)
      simpa [noEmptyPara] using hl
  | .Heading lv c, _ => by simp [noEmptyPara]
  | .CodeBlock lang c, _ => by simp [noEmptyPara]
  | .List items o, _ => by simp [noEmptyPara]
  | .Table hs rs, _ => by simp [noEmptyPara]
  | .HorizontalRule, _ => by simp [noEmptyPara]
  | .Html c, _ => by simp [noEmptyPara]

theorem elemOkList_noEmptyParaList :
    ∀ (l : List PageElement), elemOkList l → noEmptyParaList l
  | [], _ => by simp [noEmptyParaList]
  | e :: rest, h => by
      have h' : elemOk e ∧ elemOkList rest := by simpa [elemOkList] using h
      have h₁ := elemOk_noEmptyPara e h'.1
      have h₂ := elemOkList_noEmptyParaList rest h'.2
      simp only [noEmptyParaList]
      exact ⟨h₁, h₂⟩

end

mutual

theorem elemOk_itemsBuilt : ∀ (e : PageElement), elemOk e → itemsBuilt e
  | .List items o, h => by simpa [itemsBuilt, elemOk] using h
  | .BlockQuote l, h => by
      have hl := elemOkList_itemsBuiltList l (by simpa [elemOk] using h)
      simpa [itemsBuilt] using hl
  | .Paragraph c, _ => by simp [itemsBuilt]
  | .Heading lv c, _ => by simp [itemsBuilt]
  | .CodeBlock lang c, _ => by simp [itemsBuilt]
  | .Table hs rs, _ => by simp [itemsBuilt]
  | .HorizontalRule, _ => by simp [itemsBuilt]
  | .Html c, _ => by simp [itemsBuilt]

theorem elemOkList_itemsBuiltList :
    ∀ (l : List PageElement), elemOkList l → itemsBuiltList l
  | [], _ => by simp [itemsBuiltList]
  | e :: rest, h => by
      have h' : elemOk e ∧ elemOkList rest := by simpa [elemOkList] using h
      have h₁ := elemOk_itemsBuilt e h'.1
      have h₂ := elemOkList_itemsBuiltList rest h'.2
      simp only [itemsBuiltList]
      exact ⟨h₁, h₂⟩

end

/-- Claim C8: `ElementBuilder::build` drops a Paragraph frame whose inline
buffer is empty (`None`) and produces a Paragraph element from any
non-empty buffer; consequently no Paragraph with empty content — hence no
empty `<p></p>` — originates anywhere in the builder's output tree. -/
theorem empty_paragraph_dropped :
    (∀ b : ElementBuilder, b.kind = .Paragraph →
      ((b.inline_content = [] → b.build = none) ∧
       (b.inline_content ≠ [] → b.build = some (.Paragraph b.inline_content)))) ∧
    ∀ events : List Event, ∀ e ∈ get_page_structured events, noEmptyPara e := by
  constructor
  · intro b hk
    constructor
    · intro hnil
      simp [ElementBuilder.build, hk, hnil]
    · intro hne
      have hf : b.inline_content.isEmpty = false := by
        cases hc : b.inline_content with
        | nil => exact absurd hc hne
        | cons a l => rfl
      simp [ElementBuilder.build, hk, hf]
  · intro events e he
    exact elemOk_noEmptyPara e (get_page_structured_elemOk events e he)

/-- Witness for C8: an empty paragraph frame builds to `None`, a
non-empty one to a Paragraph element, and the output of a stream with an
empty and a non-empty paragraph contains no empty paragraph. -/
theorem empty_paragraph_dropped_witness :
    ({ kind := .Paragraph, inline_content := [], block_content := [],
       list_items := [], table_data := {} } : ElementBuilder).build = none ∧
    ({ kind := .Paragraph, inline_content := [.Text "x"], block_content := [],
       list_items := [], table_data := {} } : ElementBuilder).build =
      some (.Paragraph [.Text "x"]) ∧
    ∀ e ∈ get_page_structured
        [.Start .Paragraph, .End, .Start .Paragraph, .Text "x", .End],
      noEmptyPara e :=
  ⟨(empty_paragraph_dropped.1 _ rfl).1 rfl,
   (empty_paragraph_dropped.1 _ rfl).2 (by simp),
   empty_paragraph_dropped.2 _⟩

/-! The HTML renderer. -/

/-- Per-character encoding of `html_escape::encode_text` (the external
escaping collaborator): ampersand and angle brackets become entities,
all other characters pass through. -/
def encodeTextChar (c : Char) : List Char :=
  if c = '&' then "&amp;".data
  else if c = '<' then "&lt;".data
  else if c = '>' then "&gt;".data
  else [c]

/-- Model of `html_escape::encode_text`. -/
def encodeText (s : String) : String :=
  ⟨(s.data.map encodeTextChar).flatten⟩

/-- The apostrophe character (written by code point to keep source plain). -/
def apos : Char := Char.ofNat 39

/-- Per-character encoding for quoted attribute values. -/
def encodeAttrChar (c : Char) : List Char :=
  if c = '&' then "&amp;".data
  else if c = '<' then "&lt;".data
  else if c = '>' then "&gt;".data
  else if c = '"' then "&quot;".data
  else if c = apos then "&#x27;".data
  else [c]

/-- Modelled from the spec: the external
`html_escape::encode_quoted_attribute` collaborator is not part of this
repository; per the spec, attribute positions escape "angle brackets,
ampersand, quotes" — both quote characters are encoded along with the
text-escape set. -/
def encodeQuotedAttribute (s : String) : String :=
  ⟨(s.data.map encodeAttrChar).flatten⟩

/-- The optional `title="..."` attribute fragment used by Link and Image
rendering in `render_inline_elements`. -/
def titleAttr : Option String → String
  | some t => " title=\"" ++ encodeQuotedAttribute t ++ "\""
  | none => ""

mutual

/-- Body of the `render_inline_elements` loop for one element. -/
def render_inline_element : InlineElement → String
  | .Text text => encodeText text
  | .Link text url title =>
      "<a href=\"" ++ encodeQuotedAttribute url ++ "\"" ++ titleAttr title ++
        ">" ++ encodeText text ++ "</a>"
  | .Image alt url title =>
      "<img src=\"" ++ encodeQuotedAttribute url ++ "\" alt=\"" ++
        encodeQuotedAttribute alt ++ "\"" ++ titleAttr title ++ "/>"
  | .Emphasis level content =>
      match level with
      | 1 => "<em>" ++ render_inline_elements content ++ "</em>"
      | 2 => "<strong>" ++ render_inline_elements content ++ "</strong>"
      | _ => render_inline_elements content
  | .Code code => "<code>" ++ encodeText code ++ "</code>"
  | .SoftBreak => " "
  | .HardBreak => "<br />"
  | .Strikethrough content => "<del>" ++ render_inline_elements content ++ "</del>"

/-- Mirror of `render_inline_elements`. -/
def render_inline_elements : List InlineElement → String
  | [] => ""
  | e :: rest => render_inline_element e ++ render_inline_elements rest

end

mutual

/-- Mirror of `render_list_item`. -/
def render_list_item : ListItem → String
  | ⟨content, sub_items, checked⟩ =>
      match checked with
      | some chk =>
          let checkbox :=
            if chk then "<input type=\"checkbox\" checked disabled/> "
            else "<input type=\"checkbox\" disabled/> "
          "<li>" ++ checkbox ++ render_inline_elements content ++ "</li>\n"
      | none =>
          "<li>" ++ render_inline_elements content ++
            (if sub_items.isEmpty then "" else
              "\n<ul>\n" ++ renderListItems sub_items ++ "</ul>\n") ++
            "</li>\n"

/-- The concatenation of rendered list items (the source's `map`/collect
over items). -/
def renderListItems : List ListItem → String
  | [] => ""
  | it :: rest => render_list_item it ++ renderListItems rest

end

/-- Mirror of `render_table` (imperative accumulation onto one buffer). -/
def render_table (headers : List (List InlineElement))
    (rows : List (List (List InlineElement))) : String :=
  let html := "<table>\n"
  let html :=
    if headers.isEmpty then html
    else
      (headers.foldl
        (fun acc header => acc ++ "<th>" ++ render_inline_elements header ++ "</th>\n")
        (html ++ "<thead>\n<tr>\n")) ++ "</tr>\n</thead>\n"
  let html :=
    if rows.isEmpty then html
    else
      (rows.foldl
        (fun acc row =>
          (row.foldl
            (fun acc2 cell => acc2 ++ "<td>" ++ render_inline_elements cell ++ "</td>\n")
            (acc ++ "<tr>\n")) ++ "</tr>\n")
        (html ++ "<tbody>\n")) ++ "</tbody>\n"
  html ++ "</table>\n"

/-- The external syntect collaborator: syntax lookup by token and by
name, and best-effort highlighting (`none` models `Err`). -/
structure Highlighter (σ : Type) where
  findSyntaxByToken : String → Option σ
  findSyntaxByName : String → Option σ
  highlightedHtmlForString : String → σ → Option String

/-- Mirror of the syntax resolution in `render_element`'s CodeBlock arm:
lookup by token, with the renderer-owned alias table mapping `nix` to the
JavaScript grammar and `toml` to the YAML grammar. -/
def resolveSyntax {σ : Type} (H : Highlighter σ) (lang : String) : Option σ :=
  match H.findSyntaxByToken lang with
  | some s => some s
  | none =>
      match lang with
      | "nix" => H.findSyntaxByName "JavaScript"
      | "toml" => H.findSyntaxByName "YAML"
      | _ => none

/-- The escaped `<pre><code>` fallback emitted by `render_element` when no
language is given, no syntax is found, or highlighting fails. -/
def codeFallback (content : String) : String :=
  "<pre><code>" ++ encodeText content ++ "</code></pre>\n"

mutual

/-- Mirror of `render_element`. -/
def render_element {σ : Type} (H : Highlighter σ) : PageElement → String
  | .Heading level content =>
      "<h" ++ toString level ++ ">" ++ render_inline_elements content ++
        "</h" ++ toString level ++ ">\n"
  | .Paragraph content => "<p>" ++ render_inline_elements content ++ "</p>\n"
  | .CodeBlock language content =>
      match language with
      | some lang =>
          match resolveSyntax H lang with
          | some syn =>
              match H.highlightedHtmlForString content syn with
              | some out => out
              | none => codeFallback content
          | none => codeFallback content
      | none => codeFallback content
  | .List items ordered =>
      let tag := if ordered then "ol" else "ul"
      "<" ++ tag ++ ">\n" ++ renderListItems items ++ "</" ++ tag ++ ">\n"
  | .BlockQuote content =>
      "<blockquote>\n" ++ render_elements_to_html H content ++ "</blockquote>\n"
  | .Table headers rows => render_table headers rows
  | .HorizontalRule => "<hr />\n"
  | .Html content => content ++ "\n"

/-- Mirror of `render_elements_to_html`. -/
def render_elements_to_html {σ : Type} (H : Highlighter σ) : List PageElement → String
  | [] => ""
  | e :: rest => render_element H e ++ render_elements_to_html H rest

end

theorem encodeTextChar_mem {a c : Char} (h : c ∈ encodeTextChar a) :
    c ≠ '<' ∧ c ≠ '>' := by
  unfold encodeTextChar at h
  split at h
  · have hall : ∀ x ∈ "&amp;".data, x ≠ '<' ∧ x ≠ '>' := by decide
    exact hall c h
  split at h
  · have hall : ∀ x ∈ "&lt;".data, x ≠ '<' ∧ x ≠ '>' := by decide
    exact hall c h
  split at h
  · have hall : ∀ x ∈ "&gt;".data, x ≠ '<' ∧ x ≠ '>' := by decide
    exact hall c h
  · next h₁ h₂ h₃ =>
      rcases List.mem_singleton.mp h with rfl
      exact ⟨h₂, h₃⟩

theorem encodeText_mem {s : String} {c : Char} (h : c ∈ (encodeText s).data) :
    c ≠ '<' ∧ c ≠ '>' := by
  have h' : c ∈ (s.data.map encodeTextChar).flatten := h
  rcases List.mem_flatten.mp h' with ⟨l, hl, hc⟩
  rcases List.mem_map.mp hl with ⟨a, _, rfl⟩
  exact encodeTextChar_mem hc

theorem encodeAttrChar_mem {a c : Char} (h : c ∈ encodeAttrChar a) :
    c ≠ '<' ∧ c ≠ '>' ∧ c ≠ '"' ∧ c ≠ apos := by
  unfold encodeAttrChar at h
  split at h
  · have hall : ∀ x ∈ "&amp;".data, x ≠ '<' ∧ x ≠ '>' ∧ x ≠ '"' ∧ x ≠ apos := by decide
    exact hall c h
  split at h
  · have hall : ∀ x ∈ "&lt;".data, x ≠ '<' ∧ x ≠ '>' ∧ x ≠ '"' ∧ x ≠ apos := by decide
    exact hall c h
  split at h
  · have hall : ∀ x ∈ "&gt;".data, x ≠ '<' ∧ x ≠ '>' ∧ x ≠ '"' ∧ x ≠ apos := by decide
    exact hall c h
  split at h
  · have hall : ∀ x ∈ "&quot;".data, x ≠ '<' ∧ x ≠ '>' ∧ x ≠ '"' ∧ x ≠ apos := by decide
    exact hall c h
  split at h
  · have hall : ∀ x ∈ "&#x27;".data, x ≠ '<' ∧ x ≠ '>' ∧ x ≠ '"' ∧ x ≠ apos := by decide
    exact hall c h
  · next h₁ h₂ h₃ h₄ h₅ =>
      rcases List.mem_singleton.mp h with rfl
      exact ⟨h₂, h₃, h₄, h₅⟩

theorem encodeQuotedAttribute_mem {s : String} {c : Char}
    (h : c ∈ (encodeQuotedAttribute s).data) :
    c ≠ '<' ∧ c ≠ '>' ∧ c ≠ '"' ∧ c ≠ apos := by
  have h' : c ∈ (s.data.map encodeAttrChar).flatten := h
  rcases List.mem_flatten.mp h' with ⟨l, hl, hc⟩
  rcases List.mem_map.mp hl with ⟨a, _, rfl⟩
  exact encodeAttrChar_mem hc

/-- Claim C5: `render_element` on a CodeBlock falls back to the escaped
`<pre><code>` form whenever the language tag is absent, the tag (after
the alias table) resolves to no syntax, or highlighting itself fails; the
function is total, so none of these cases is an error. -/
theorem codeblock_fallback (σ : Type) (H : Highlighter σ) (content : String) :
    (render_element H (.CodeBlock none content) = codeFallback content) ∧
    (∀ lang, resolveSyntax H lang = none →
      render_element H (.CodeBlock (some lang) content) = codeFallback content) ∧
    (∀ lang syn, resolveSyntax H lang = some syn →
      H.highlightedHtmlForString content syn = none →
      render_element H (.CodeBlock (some lang) content) = codeFallback content) ∧
    (codeFallback content = "<pre><code>" ++ encodeText content ++ "</code></pre>\n" ∧
      '<' ∉ (encodeText content).data ∧ '>' ∉ (encodeText content).data) := by
  refine ⟨?_, ?_, ?_, rfl, ?_, ?_⟩
  · simp [render_element]
  · intro lang h
    simp [render_element, h]
  · intro lang syn h hh
    simp [render_element, h, hh]
  · intro hmem
    exact absurd rfl (encodeText_mem hmem).1
  · intro hmem
    exact absurd rfl (encodeText_mem hmem).2

/-- A highlighter that knows no syntaxes and always fails. -/
def nullHighlighter : Highlighter Unit :=
  { findSyntaxByToken := fun _ => none
    findSyntaxByName := fun _ => none
    highlightedHtmlForString := fun _ _ => none }

/-- Witness for C5 at an unknown language tag and at a missing tag, with
content containing `<`. -/
theorem codeblock_fallback_witness :
    resolveSyntax nullHighlighter "zzz" = none ∧
    render_element nullHighlighter (.CodeBlock (some "zzz") "a<b") =
      codeFallback "a<b" ∧
    render_element nullHighlighter (.CodeBlock none "a<b") = codeFallback "a<b" ∧
    codeFallback "a<b" = "<pre><code>a&lt;b</code></pre>\n" :=
  ⟨rfl,
   (codeblock_fallback Unit nullHighlighter "a<b").2.1 "zzz" rfl,
   (codeblock_fallback Unit nullHighlighter "a<b").1,
   by rfl⟩

/-! Occurrence analysis for rendered HTML: `ltStartsB S l` scans `l` and
checks that every occurrence of the character `<` begins an occurrence of
one of the token strings in `S`.  If a pattern starting with `<` is
prefix-incomparable with every token of `S`, it cannot occur in `l`. -/

def ltStartsB (S : List (List Char)) : List Char → Bool
  | [] => true
  | c :: rest =>
      (if c = '<' then S.any (fun s => s.isPrefixOf (c :: rest)) else true) &&
        ltStartsB S rest

theorem prefB_extend {s t u : List Char} (h : s.isPrefixOf t = true) :
    s.isPrefixOf (t ++ u) = true := by
  induction s generalizing t with
  | nil => simp [List.isPrefixOf]
  | cons a as ih =>
      cases t with
      | nil => simp [List.isPrefixOf] at h
      | cons b bs =>
          simp only [List.isPrefixOf, Bool.and_eq_true] at h
          simp only [List.cons_append, List.isPrefixOf, Bool.and_eq_true]
          exact ⟨h.1, ih h.2⟩

theorem prefB_iff (s t : List Char) : s.isPrefixOf t = true ↔ s <+: t := by
  induction s generalizing t with
  | nil =>
      simp only [List.isPrefixOf]
      exact ⟨fun _ => ⟨t, rfl⟩, fun _ => trivial⟩
  | cons a as ih =>
      cases t with
      | nil =>
          simp only [List.isPrefixOf]
          constructor
          · intro h; cases h
          · rintro ⟨u, hu⟩; cases hu
      | cons b bs =>
          simp only [List.isPrefixOf, Bool.and_eq_true, beq_iff_eq]
          constructor
          · rintro ⟨rfl, h⟩
            rcases (ih bs).mp h with ⟨u, rfl⟩
            exact ⟨u, rfl⟩
          · rintro ⟨u, hu⟩
            injection hu with h₁ h₂
            subst h₁
            exact ⟨rfl, (ih bs).mpr ⟨u, h₂⟩⟩

theorem ltStartsB_append {S : List (List Char)} {l₁ l₂ : List Char}
    (h₁ : ltStartsB S l₁ = true) (h₂ : ltStartsB S l₂ = true) :
    ltStartsB S (l₁ ++ l₂) = true := by
  induction l₁ with
  | nil => simpa using h₂
  | cons c rest ih =>
      simp only [ltStartsB, Bool.and_eq_true] at h₁
      simp only [List.cons_append, ltStartsB, Bool.and_eq_true]
      refine ⟨?_, ih h₁.2⟩
      rcases h₁ with ⟨hhead, _⟩
      by_cases hc : c = '<'
      · rw [if_pos hc] at hhead ⊢
        rcases List.any_eq_true.mp hhead with ⟨s, hs, hpre⟩
        exact List.any_eq_true.mpr ⟨s, hs, prefB_extend hpre⟩
      · rw [if_neg hc]

theorem ltStartsB_of_no_lt {S : List (List Char)} {l : List Char}
    (h : ∀ c ∈ l, c ≠ '<') : ltStartsB S l = true := by
  induction l with
  | nil => rfl
  | cons c rest ih =>
      simp only [ltStartsB, Bool.and_eq_true]
      refine ⟨?_, ih fun x hx => h x (List.mem_cons_of_mem _ hx)⟩
      rw [if_neg (h c (List.mem_cons_self _ _))]

theorem occ_cons_elim {pat : List Char} {c : Char} {rest : List Char}
    (h : pat <:+: (c :: rest)) : pat <+: (c :: rest) ∨ pat <:+: rest := by
  rcases h with ⟨u, v, huv⟩
  cases u with
  | nil => exact Or.inl ⟨v, by simpa using huv⟩
  | cons a u' =>
      refine Or.inr ?_
      injection huv with h₁ h₂
      exact ⟨u', v, h₂⟩

theorem pref_total {l₁ l₂ l₃ : List Char} (h₁ : l₁ <+: l₃) (h₂ : l₂ <+: l₃) :
    l₁ <+: l₂ ∨ l₂ <+: l₁ := by
  induction l₃ generalizing l₁ l₂ with
  | nil =>
      rcases h₁ with ⟨u, hu⟩
      cases l₁ with
      | nil => exact Or.inl ⟨l₂, rfl⟩
      | cons a as => cases hu
  | cons c rest ih =>
      cases l₁ with
      | nil => exact Or.inl ⟨l₂, rfl⟩
      | cons a as =>
          cases l₂ with
          | nil => exact Or.inr ⟨a :: as, rfl⟩
          | cons b bs =>
              rcases h₁ with ⟨u, hu⟩
              rcases h₂ with ⟨v, hv⟩
              injection hu with ha hu'
              injection hv with hb hv'
              subst ha
              subst hb
              rcases ih ⟨u, hu'⟩ ⟨v, hv'⟩ with h | h
              · rcases h with ⟨w, hw⟩
                exact Or.inl ⟨w, by simp [hw]⟩
              · rcases h with ⟨w, hw⟩
                exact Or.inr ⟨w, by simp [hw]⟩

theorem ltStartsB_no_occurrence {S : List (List Char)} {pat l : List Char}
    (hl : ltStartsB S l = true)
    (hhead : pat.head? = some '<')
    (hinc : ∀ s ∈ S, s.isPrefixOf pat = false ∧ pat.isPrefixOf s = false) :
    ¬ pat <:+: l := by
  induction l with
  | nil =>
      rintro ⟨u, v, huv⟩
      cases u <;> cases pat <;> simp_all
  | cons c rest ih =>
      intro h
      simp only [ltStartsB, Bool.and_eq_true] at hl
      rcases occ_cons_elim h with hpre | hinf
      · cases pat with
        | nil => cases hhead
        | cons p ps =>
            have hp : p = '<' := by
              simpa using hhead
            subst hp
            rcases hpre with ⟨u, hu⟩
            injection hu with hc hu'
            subst hc
            rcases hl with ⟨hhead', _⟩
            rw [if_pos rfl] at hhead'
            rcases List.any_eq_true.mp hhead' with ⟨s, hs, hpre'⟩
            have hs' : s <+: ('<' :: rest) := (prefB_iff _ _).mp hpre'
            have hp' : ('<' :: ps) <+: ('<' :: rest) :=
              ⟨u, congrArg (List.cons '<') hu'⟩
            rcases pref_total hs' hp' with hcase | hcase
            · have hb := (prefB_iff _ _).mpr hcase
              rw [(hinc s hs).1] at hb
              cases hb
            · have hb := (prefB_iff _ _).mpr hcase
              rw [(hinc s hs).2] at hb
              cases hb
      · exact ih hl.2 hinf

theorem string_data_append (s t : String) : (s ++ t).data = s.data ++ t.data := rfl

theorem ltStartsB_str {S : List (List Char)} {s t : String}
    (hs : ltStartsB S s.data = true) (ht : ltStartsB S t.data = true) :
    ltStartsB S (s ++ t).data = true := by
  rw [string_data_append]
  exact ltStartsB_append hs ht

theorem encodeText_no_lt (s : String) :
    ∀ c ∈ (encodeText s).data, c ≠ '<' :=
  fun _ hc => (encodeText_mem hc).1

theorem encodeQuotedAttribute_no_lt (s : String) :
    ∀ c ∈ (encodeQuotedAttribute s).data, c ≠ '<' :=
  fun _ hc => (encodeQuotedAttribute_mem hc).1

theorem titleAttr_no_lt (t : Option String) :
    ∀ c ∈ (titleAttr t).data, c ≠ '<' := by
  cases t with
  | none => intro c hc; cases hc
  | some t =>
      intro c hc
      simp only [titleAttr, string_data_append, List.mem_append] at hc
      rcases hc with (hc | hc) | hc
      · revert hc
        have hall : ∀ x ∈ " title=\"".data, x ≠ '<' := by decide
        exact hall c
      · exact encodeQuotedAttribute_no_lt t c hc
      · revert hc
        have hall : ∀ x ∈ "\"".data, x ≠ '<' := by decide
        exact hall c

/-- The tag tokens that may follow a `<` in rendered inline HTML. -/
def sInline : List (List Char) :=
  ["<a ", "</a>", "<img ", "<em>", "</em>", "<strong>", "</strong>",
   "<code>", "</code>", "<br />", "<del>", "</del>"].map String.data

theorem ltStartsB_mono {S T : List (List Char)} {l : List Char}
    (hsub : ∀ s ∈ S, s ∈ T) (h : ltStartsB S l = true) :
    ltStartsB T l = true := by
  induction l with
  | nil => rfl
  | cons c rest ih =>
      simp only [ltStartsB, Bool.and_eq_true] at h ⊢
      refine ⟨?_, ih h.2⟩
      rcases h with ⟨hh, _⟩
      by_cases hc : c = '<'
      · rw [if_pos hc] at hh ⊢
        rcases List.any_eq_true.mp hh with ⟨s, hs, hp⟩
        exact List.any_eq_true.mpr ⟨s, hsub s hs, hp⟩
      · rw [if_neg hc]

theorem string_append_assoc (a b c : String) : (a ++ b) ++ c = a ++ (b ++ c) :=
  congrArg String.mk (List.append_assoc a.data b.data c.data)

theorem string_append_nil (s : String) : s ++ "" = s :=
  congrArg String.mk (List.append_nil s.data)

mutual

theorem render_inline_element_lt (e : InlineElement) :
    ltStartsB sInline (render_inline_element e).data = true := by
  cases e with
  | Text s =>
      simp only [render_inline_element]
      exact ltStartsB_of_no_lt (encodeText_no_lt s)
  | Link text url title =>
      simp only [render_inline_element]
      exact ltStartsB_str (ltStartsB_str (ltStartsB_str (ltStartsB_str
        (ltStartsB_str (ltStartsB_str (by decide)
          (ltStartsB_of_no_lt (encodeQuotedAttribute_no_lt url)))
          (by decide))
          (ltStartsB_of_no_lt (titleAttr_no_lt title)))
          (by decide))
          (ltStartsB_of_no_lt (encodeText_no_lt text)))
          (by decide)
  | Image alt url title =>
      simp only [render_inline_element]
      exact ltStartsB_str (ltStartsB_str (ltStartsB_str (ltStartsB_str
        (ltStartsB_str (ltStartsB_str (by decide)
          (ltStartsB_of_no_lt (encodeQuotedAttribute_no_lt url)))
          (by decide))
          (ltStartsB_of_no_lt (encodeQuotedAttribute_no_lt alt)))
          (by decide))
          (ltStartsB_of_no_lt (titleAttr_no_lt title)))
          (by decide)
  | Emphasis level content =>
      have hrec := render_inline_elements_lt content
      simp only [render_inline_element]
      split
      · exact ltStartsB_str (ltStartsB_str (by decide) hrec) (by decide)
      · exact ltStartsB_str (ltStartsB_str (by decide) hrec) (by decide)
      · exact hrec
  | Code code =>
      simp only [render_inline_element]
      exact ltStartsB_str (ltStartsB_str (by decide)
        (ltStartsB_of_no_lt (encodeText_no_lt code))) (by decide)
  | SoftBreak =>
      simp only [render_inline_element]
      decide
  | HardBreak =>
      simp only [render_inline_element]
      decide
  | Strikethrough content =>
      have hrec := render_inline_elements_lt content
      simp only [render_inline_element]
      exact ltStartsB_str (ltStartsB_str (by decide) hrec) (by decide)

theorem render_inline_elements_lt (l : List InlineElement) :
    ltStartsB sInline (render_inline_elements l).data = true := by
  cases l with
  | nil =>
      simp only [render_inline_elements]
      decide
  | cons e rest =>
      simp only [render_inline_elements]
      exact ltStartsB_str (render_inline_element_lt e)
        (render_inline_elements_lt rest)

end

/-- Tag tokens of rendered list items (inline tokens plus `li`). -/
def sLi : List (List Char) := sInline ++ ["<li>".data, "</li>".data]

/-- Tag tokens of a rendered List element. -/
def sList : List (List Char) :=
  sLi ++ ["<ol>".data, "</ol>".data, "<ul>".data, "</ul>".data]

theorem render_list_item_flat (content : List InlineElement) :
    render_list_item ⟨content, [], none⟩ =
      "<li>" ++ render_inline_elements content ++ "</li>\n" := by
  simp [render_list_item, string_append_nil]

theorem render_list_item_flat_lt (content : List InlineElement) :
    ltStartsB sLi (render_list_item ⟨content, [], none⟩).data = true := by
  rw [render_list_item_flat]
  exact ltStartsB_str (ltStartsB_str (by decide)
    (ltStartsB_mono (fun s hs => List.mem_append_left _ hs)
      (render_inline_elements_lt content))) (by decide)

theorem renderListItems_lt (items : List ListItem)
    (h : ∀ it ∈ items, it.sub_items = [] ∧ it.checked = none) :
    ltStartsB sLi (renderListItems items).data = true := by
  induction items with
  | nil =>
      simp only [renderListItems]
      decide
  | cons it rest ih =>
      simp only [renderListItems]
      refine ltStartsB_str ?_ (ih fun x hx => h x (List.mem_cons_of_mem _ hx))
      obtain ⟨c, s, ch⟩ := it
      obtain ⟨hs, hch⟩ := h _ (List.mem_cons_self _ _)
      simp only at hs hch
      subst hs
      subst hch
      exact render_list_item_flat_lt c

theorem render_element_list_data {σ : Type} (H : Highlighter σ)
    (items : List ListItem) (ordered : Bool) :
    (render_element H (.List items ordered)).data =
      (if ordered then "<ol>\n" else "<ul>\n").data ++
        ((renderListItems items).data ++
          (if ordered then "</ol>\n" else "</ul>\n").data) := by
  cases ordered <;>
    simp only [render_element, if_true, if_false, string_data_append,
      List.append_assoc] <;> rfl

/-- Claim C10: every list item produced by the document builder has empty
`sub_items` and `checked = none`; consequently rendering a builder-produced
List emits no checkbox `<input>` anywhere, and no nested `<ul>` inside any
of its `<li>` items. -/
theorem builder_items_render_plain :
    (∀ events : List Event, ∀ e ∈ get_page_structured events, itemsBuilt e) ∧
    (∀ (items : List ListItem) (ordered : Bool),
      (∀ it ∈ items, it.sub_items = [] ∧ it.checked = none) →
      (∀ (σ : Type) (H : Highlighter σ),
        ¬ "<input".data <:+: (render_element H (.List items ordered)).data) ∧
      (∀ it ∈ items,
        ¬ "<input".data <:+: (render_list_item it).data ∧
        ¬ "<ul".data <:+: (render_list_item it).data)) := by
  constructor
  · intro events e he
    exact elemOk_itemsBuilt e (get_page_structured_elemOk events e he)
  · intro items ordered hflat
    have hitems := renderListItems_lt items hflat
    constructor
    · intro σ H
      rw [render_element_list_data]
      refine @ltStartsB_no_occurrence sList _ _ ?_ rfl (by decide)
      cases ordered <;>
        exact ltStartsB_append (by decide)
          (ltStartsB_append
            (ltStartsB_mono (fun s hs => List.mem_append_left _ hs) hitems)
            (by decide))
    · intro it hit
      obtain ⟨c, s, ch⟩ := it
      obtain ⟨hs, hch⟩ := hflat _ hit
      simp only at hs hch
      subst hs
      subst hch
      exact ⟨ltStartsB_no_occurrence (render_list_item_flat_lt c) rfl (by decide),
             ltStartsB_no_occurrence (render_list_item_flat_lt c) rfl (by decide)⟩

/-- Witness for C10: a one-item unordered list built from a concrete
stream, and its rendering, free of checkbox inputs and nested lists. -/
theorem builder_items_render_plain_witness :
    (∀ e ∈ get_page_structured
        [.Start (.List none), .Start .Item, .Text "a", .End, .End],
      itemsBuilt e) ∧
    ¬ "<input".data <:+:
        (render_element nullHighlighter
          (.List [⟨[.Text "a"], [], none⟩] false)).data ∧
    ¬ "<ul".data <:+: (render_list_item ⟨[.Text "a"], [], none⟩).data :=
  ⟨builder_items_render_plain.1 _,
   (builder_items_render_plain.2 [⟨[.Text "a"], [], none⟩] false
      (fun it hit => by
        rcases List.mem_singleton.mp hit with rfl
        exact ⟨rfl, rfl⟩)).1 Unit nullHighlighter,
   ((builder_items_render_plain.2 [⟨[.Text "a"], [], none⟩] false
      (fun it hit => by
        rcases List.mem_singleton.mp hit with rfl
        exact ⟨rfl, rfl⟩)).2 _ (List.mem_cons_self _ _)).2⟩

/-- Concatenation of a list of strings. -/
def strJoin : List String → String
  | [] => ""
  | s :: rest => s ++ strJoin rest

/-- The `<thead>` block `render_table` emits for non-empty headers: one
`<th>` cell per header cell, each wrapping its own inline content. -/
def theadFragment (headers : List (List InlineElement)) : String :=
  "<thead>\n<tr>\n" ++
    strJoin (headers.map fun h => "<th>" ++ render_inline_elements h ++ "</th>\n") ++
    "</tr>\n</thead>\n"

/-- One body row: one `<td>` cell per cell of that row — exactly the
row's own cells, no padding or truncation against the header width. -/
def rowFragment (row : List (List InlineElement)) : String :=
  "<tr>\n" ++
    strJoin (row.map fun cell => "<td>" ++ render_inline_elements cell ++ "</td>\n") ++
    "</tr>\n"

/-- The `<tbody>` block `render_table` emits for non-empty rows. -/
def tbodyFragment (rows : List (List (List InlineElement))) : String :=
  "<tbody>\n" ++ strJoin (rows.map fun row => rowFragment row) ++ "</tbody>\n"

theorem foldl_append_acc {α : Type} (f : α → String) (l : List α) (init : String) :
    l.foldl (fun acc x => acc ++ f x) init = init ++ strJoin (l.map f) := by
  induction l generalizing init with
  | nil => simp [strJoin, string_append_nil]
  | cons a rest ih =>
      simp only [List.foldl_cons, List.map_cons, strJoin]
      rw [ih, string_append_assoc]

theorem render_table_eq (headers : List (List InlineElement))
    (rows : List (List (List InlineElement))) :
    render_table headers rows =
      "<table>\n" ++ (if headers.isEmpty then "" else theadFragment headers) ++
        (if rows.isEmpty then "" else tbodyFragment rows) ++ "</table>\n" := by
  have hrowfun :
      (fun (acc : String) (row : List (List InlineElement)) =>
        (row.foldl
          (fun acc2 cell => acc2 ++ "<td>" ++ render_inline_elements cell ++ "</td>\n")
          (acc ++ "<tr>\n")) ++ "</tr>\n") =
      fun acc row => acc ++ rowFragment row := by
    funext acc row
    have hcell :
        (fun (acc2 : String) (cell : List InlineElement) =>
          acc2 ++ "<td>" ++ render_inline_elements cell ++ "</td>\n") =
        fun acc2 cell =>
          acc2 ++ ("<td>" ++ (render_inline_elements cell ++ "</td>\n")) := by
      funext acc2 cell
      simp only [string_append_assoc]
    rw [hcell, foldl_append_acc, rowFragment]
    simp only [string_append_assoc]
  have hth :
      (fun (acc : String) (header : List InlineElement) =>
        acc ++ "<th>" ++ render_inline_elements header ++ "</th>\n") =
      fun acc header =>
        acc ++ ("<th>" ++ (render_inline_elements header ++ "</th>\n")) := by
    funext acc header
    simp only [string_append_assoc]
  by_cases h1 : headers.isEmpty <;> by_cases h2 : rows.isEmpty <;>
    simp [render_table, h1, h2, hrowfun, hth, foldl_append_acc, theadFragment,
      tbodyFragment, rowFragment, string_append_nil, string_append_assoc] <;>
    rfl

/-- Tag tokens of a rendered table with empty headers. -/
def sTableBody : List (List Char) :=
  sInline ++ ["<table>".data, "</table>".data, "<tbody>".data, "</tbody>".data,
    "<tr>".data, "</tr>".data, "<td>".data, "</td>".data]

/-- Tag tokens of a rendered table with empty rows. -/
def sTableHead : List (List Char) :=
  sInline ++ ["<table>".data, "</table>".data, "<thead>".data, "</thead>".data,
    "<tr>".data, "</tr>".data, "<th>".data, "</th>".data]

theorem occ_append_left (l₁ : List Char) {pat l₂ : List Char}
    (h : pat <:+: l₂) : pat <:+: (l₁ ++ l₂) := by
  rcases h with ⟨u, v, huv⟩
  exact ⟨l₁ ++ u, v, by rw [← huv]; simp [List.append_assoc]⟩

theorem pref_isInfix {pat l : List Char} (h : pat <+: l) : pat <:+: l := by
  rcases h with ⟨u, hu⟩
  exact ⟨[], u, by simpa using hu⟩

theorem pref_extend_lt {pat C : List Char} (Z : List Char) (h : pat <+: C) :
    pat <+: (C ++ Z) := by
  rcases h with ⟨u, hu⟩
  exact ⟨u ++ Z, by rw [← List.append_assoc, hu]⟩

theorem strJoin_lt {α : Type} {S : List (List Char)} (f : α → String)
    (l : List α) (h : ∀ x ∈ l, ltStartsB S (f x).data = true) :
    ltStartsB S (strJoin (l.map f)).data = true := by
  induction l with
  | nil =>
      simp only [List.map_nil, strJoin]
      rfl
  | cons a rest ih =>
      simp only [List.map_cons, strJoin]
      exact ltStartsB_str (h a (List.mem_cons_self _ _))
        (ih fun x hx => h x (List.mem_cons_of_mem _ hx))

theorem tbodyFragment_lt (rows : List (List (List InlineElement))) :
    ltStartsB sTableBody (tbodyFragment rows).data = true := by
  refine ltStartsB_str (ltStartsB_str (by decide) ?_) (by decide)
  refine strJoin_lt _ rows fun row _ => ?_
  refine ltStartsB_str (ltStartsB_str (by decide) ?_) (by decide)
  refine strJoin_lt _ row fun cell _ => ?_
  exact ltStartsB_str (ltStartsB_str (by decide)
    (ltStartsB_mono (fun s hs => List.mem_append_left _ hs)
      (render_inline_elements_lt cell))) (by decide)

theorem theadFragment_lt (headers : List (List InlineElement)) :
    ltStartsB sTableHead (theadFragment headers).data = true := by
  refine ltStartsB_str (ltStartsB_str (by decide) ?_) (by decide)
  refine strJoin_lt _ headers fun h _ => ?_
  exact ltStartsB_str (ltStartsB_str (by decide)
    (ltStartsB_mono (fun s hs => List.mem_append_left _ hs)
      (render_inline_elements_lt h))) (by decide)

/-- Claim C7: `render_table` wraps its output in `<table>`, emitting a
`<thead>` block exactly when headers are non-empty and a `<tbody>` block
exactly when rows are non-empty; header cells render as `<th>`, body
cells as `<td>`, each row rendering exactly its own cells (ragged rows
pass through unpadded and untruncated). -/
theorem render_table_sections :
    (∀ headers rows, render_table headers rows =
      "<table>\n" ++ (if headers.isEmpty then "" else theadFragment headers) ++
        (if rows.isEmpty then "" else tbodyFragment rows) ++ "</table>\n") ∧
    (∀ headers rows, headers ≠ [] →
      "<thead>".data <:+: (render_table headers rows).data) ∧
    (∀ rows, ¬ "<thead".data <:+: (render_table [] rows).data) ∧
    (∀ headers rows, rows ≠ [] →
      "<tbody>".data <:+: (render_table headers rows).data) ∧
    (∀ headers, ¬ "<tbody".data <:+: (render_table headers []).data) := by
  refine ⟨render_table_eq, ?_, ?_, ?_, ?_⟩
  · intro headers rows hne
    have h1 : headers.isEmpty = false := by
      cases headers with
      | nil => exact absurd rfl hne
      | cons a l => rfl
    rw [render_table_eq, if_neg (by simp [h1])]
    simp only [theadFragment, string_data_append, List.append_assoc]
    refine occ_append_left _ ?_
    exact pref_isInfix (pref_extend_lt _ ((prefB_iff _ _).mp (by decide)))
  · intro rows
    rw [render_table_eq]
    simp only [List.isEmpty_nil, if_true]
    refine @ltStartsB_no_occurrence sTableBody _ _ ?_ rfl (by decide)
    simp only [string_data_append, List.append_assoc]
    refine ltStartsB_append (by decide) (ltStartsB_append (by decide) ?_)
    refine ltStartsB_append ?_ (by decide)
    by_cases h2 : rows.isEmpty
    · rw [if_pos h2]
      rfl
    · rw [if_neg h2]
      exact tbodyFragment_lt rows
  · intro headers rows hne
    have h2 : rows.isEmpty = false := by
      cases rows with
      | nil => exact absurd rfl hne
      | cons a l => rfl
    rw [render_table_eq,
      show (if rows.isEmpty then "" else tbodyFragment rows) = tbodyFragment rows
        from if_neg (by simp [h2])]
    simp only [string_data_append, List.append_assoc]
    refine occ_append_left _ (occ_append_left _ ?_)
    simp only [tbodyFragment, string_data_append, List.append_assoc]
    exact pref_isInfix (pref_extend_lt _ ((prefB_iff _ _).mp (by decide)))
  · intro headers
    rw [render_table_eq]
    simp only [List.isEmpty_nil, if_true]
    refine @ltStartsB_no_occurrence sTableHead _ _ ?_ rfl (by decide)
    simp only [string_data_append, List.append_assoc]
    refine ltStartsB_append (by decide) ?_
    refine ltStartsB_append ?_ (ltStartsB_append (by decide) (by decide))
    by_cases h1 : headers.isEmpty
    · rw [if_pos h1]
      rfl
    · rw [if_neg h1]
      exact theadFragment_lt headers

/-- Witness for C7 at the spec's example table (headers `A`,`B`; one row
`1`,`2`) and at the empty-headers / empty-rows variants. -/
theorem render_table_sections_witness :
    "<thead>".data <:+:
      (render_table [[.Text "A"], [.Text "B"]] [[[.Text "1"], [.Text "2"]]]).data ∧
    "<tbody>".data <:+:
      (render_table [[.Text "A"], [.Text "B"]] [[[.Text "1"], [.Text "2"]]]).data ∧
    ¬ "<thead".data <:+: (render_table [] [[[.Text "1"], [.Text "2"]]]).data ∧
    ¬ "<tbody".data <:+: (render_table [[.Text "A"], [.Text "B"]] []).data :=
  ⟨render_table_sections.2.1 _ _ (by simp),
   render_table_sections.2.2.2.1 _ _ (by simp),
   render_table_sections.2.2.1 _,
   render_table_sections.2.2.2.2 _⟩

theorem string_nil_append (s : String) : "" ++ s = s :=
  congrArg String.mk (List.nil_append s.data)

theorem render_inline_elements_append (l₁ l₂ : List InlineElement) :
    render_inline_elements (l₁ ++ l₂) =
      render_inline_elements l₁ ++ render_inline_elements l₂ := by
  induction l₁ with
  | nil =>
      simp only [List.nil_append, render_inline_elements, string_nil_append]
  | cons e rest ih =>
      simp only [List.cons_append, render_inline_elements, string_append_assoc]
      exact congrArg (render_inline_element e ++ ·) ih

/-- Claim C9: the renderer escapes user text positionally — `Text` and
`Code` content through the text escaper (which removes raw angle
brackets), Link/Image `url`, `title` and `alt` values through the
quoted-attribute escaper (which also removes raw quotes) — while an
`Html` element's content passes through verbatim. -/
theorem renderer_escaping :
    (∀ (pre : List InlineElement) (s : String) (post : List InlineElement),
      render_inline_elements (pre ++ .Text s :: post) =
        render_inline_elements pre ++ (encodeText s ++ render_inline_elements post)) ∧
    (∀ s, render_inline_element (.Code s) = "<code>" ++ encodeText s ++ "</code>") ∧
    (∀ text url title, render_inline_element (.Link text url title) =
      "<a href=\"" ++ encodeQuotedAttribute url ++ "\"" ++ titleAttr title ++
        ">" ++ encodeText text ++ "</a>") ∧
    (∀ alt url title, render_inline_element (.Image alt url title) =
      "<img src=\"" ++ encodeQuotedAttribute url ++ "\" alt=\"" ++
        encodeQuotedAttribute alt ++ "\"" ++ titleAttr title ++ "/>") ∧
    (∀ t, titleAttr (some t) = " title=\"" ++ encodeQuotedAttribute t ++ "\"") ∧
    (∀ (σ : Type) (H : Highlighter σ) (c : String),
      render_element H (.Html c) = c ++ "\n") ∧
    (∀ s, '<' ∉ (encodeText s).data ∧ '>' ∉ (encodeText s).data) ∧
    (∀ s, '<' ∉ (encodeQuotedAttribute s).data ∧
      '>' ∉ (encodeQuotedAttribute s).data ∧
      '"' ∉ (encodeQuotedAttribute s).data ∧
      apos ∉ (encodeQuotedAttribute s).data) := by
  refine ⟨?_, ?_, ?_, ?_, ?_, ?_, ?_, ?_⟩
  · intro pre s post
    rw [render_inline_elements_append]
    simp only [render_inline_elements, render_inline_element]
  · intro s
    simp only [render_inline_element]
  · intro text url title
    simp only [render_inline_element]
  · intro alt url title
    simp only [render_inline_element]
  · intro t
    simp only [titleAttr]
  · intro σ H c
    simp only [render_element]
  · intro s
    exact ⟨fun h => (encodeText_mem h).1 rfl, fun h => (encodeText_mem h).2 rfl⟩
  · intro s
    exact ⟨fun h => (encodeQuotedAttribute_mem h).1 rfl,
      fun h => (encodeQuotedAttribute_mem h).2.1 rfl,
      fun h => (encodeQuotedAttribute_mem h).2.2.1 rfl,
      fun h => (encodeQuotedAttribute_mem h).2.2.2 rfl⟩

/-- Witness for C9: rendering a text node escapes `<`, raw HTML passes
through verbatim, and concrete escaped strings contain no raw special
characters. -/
theorem renderer_escaping_witness :
    render_inline_elements ([] ++ .Text "a<b" :: []) =
      render_inline_elements [] ++ (encodeText "a<b" ++ render_inline_elements []) ∧
    render_element nullHighlighter (.Html "<script>") = "<script>" ++ "\n" ∧
    '<' ∉ (encodeText "a<b").data ∧
    '"' ∉ (encodeQuotedAttribute "say \"hi\"").data :=
  ⟨renderer_escaping.1 [] "a<b" [],
   renderer_escaping.2.2.2.2.2.1 Unit nullHighlighter "<script>",
   (renderer_escaping.2.2.2.2.2.2.1 "a<b").1,
   (renderer_escaping.2.2.2.2.2.2.2 "say \"hi\"").2.2.1⟩

/-! Home-page hero stripping (`Site::render_home` in `builder.rs`). -/

/-- Mirror of the `retain` closure in `Site::render_home`: the two flags
are `found_h1` and `found_paragraph_after_h1`; a level-1 Heading with the
first flag unset is removed (setting it), a Paragraph with the first flag
set and the second unset is removed (setting the second), everything else
is kept. -/
def heroRetain : List PageElement → Bool → Bool → List PageElement
  | [], _, _ => []
  | e :: rest, foundH1, foundP =>
      match e with
      | .Heading level c =>
          if level = 1 ∧ foundH1 = false then heroRetain rest true foundP
          else .Heading level c :: heroRetain rest foundH1 foundP
      | .Paragraph c =>
          if foundH1 = true ∧ foundP = false then heroRetain rest foundH1 true
          else .Paragraph c :: heroRetain rest foundH1 foundP
      | other => other :: heroRetain rest foundH1 foundP

/-- The element sequence `Site::render_home` hands to the renderer: the
page's elements, filtered by `heroRetain` exactly when the home config's
hero flag is set. -/
def render_home_elements (hero : Bool) (elements : List PageElement) :
    List PageElement :=
  if hero then heroRetain elements false false else elements

/-- Follows the claim C2's words (for refutation): remove the first
Heading of any level together with the Paragraph immediately following
it (if any); pass everything else through. -/
def heroStripClaimed : List PageElement → List PageElement
  | [] => []
  | .Heading _ _ :: .Paragraph _ :: rest => rest
  | .Heading _ _ :: rest => rest
  | e :: rest => e :: heroStripClaimed rest

/-- Remove the first Paragraph of the list, keep everything else. -/
def removeFirstParagraph : List PageElement → List PageElement
  | [] => []
  | .Paragraph _ :: rest => rest
  | e :: rest => e :: removeFirstParagraph rest

/-- The amended claim C2: remove the first level-1 Heading, and the
first Paragraph occurring anywhere after it in document order. -/
def heroStripAmended : List PageElement → List PageElement
  | [] => []
  | .Heading level c :: rest =>
      if level = 1 then removeFirstParagraph rest
      else .Heading level c :: heroStripAmended rest
  | e :: rest => e :: heroStripAmended rest

/-- Counterexample to claim C2 as stated: with hero enabled, a level-2
Heading followed by a Paragraph is kept in full by the code although the
claim removes both; and a Paragraph separated from the first level-1
Heading by another element is removed by the code although it does not
immediately follow the Heading. -/
theorem hero_strip_claim_counterexample :
    heroStripClaimed [.Heading 2 [.Text "t"], .Paragraph [.Text "p"]] = [] ∧
    render_home_elements true [.Heading 2 [.Text "t"], .Paragraph [.Text "p"]] =
      [.Heading 2 [.Text "t"], .Paragraph [.Text "p"]] ∧
    render_home_elements true [.Heading 2 [.Text "t"], .Paragraph [.Text "p"]] ≠
      heroStripClaimed [.Heading 2 [.Text "t"], .Paragraph [.Text "p"]] ∧
    render_home_elements true
        [.Heading 1 [.Text "t"], .HorizontalRule, .Paragraph [.Text "p"]] =
      [.HorizontalRule] ∧
    heroStripClaimed
        [.Heading 1 [.Text "t"], .HorizontalRule, .Paragraph [.Text "p"]] =
      [.HorizontalRule, .Paragraph [.Text "p"]] := by
  refine ⟨rfl, rfl, ?_, rfl, rfl⟩
  intro h
  exact List.noConfusion
    (show (PageElement.Heading 2 [.Text "t"] :: [PageElement.Paragraph [.Text "p"]]) =
      ([] : List PageElement) from h)

theorem heroRetain_tt (l : List PageElement) : heroRetain l true true = l := by
  induction l with
  | nil => rfl
  | cons e rest ih => cases e <;> simp [heroRetain, ih]

theorem heroRetain_tf (l : List PageElement) :
    heroRetain l true false = removeFirstParagraph l := by
  induction l with
  | nil => rfl
  | cons e rest ih =>
      cases e <;> simp [heroRetain, removeFirstParagraph, ih, heroRetain_tt]

/-- Claim C2 as amended: with hero enabled, `render_home` removes exactly
the first level-1 Heading and the first Paragraph occurring after it in
document order (each only at its first occurrence), passing every other
element through unchanged and in order; with hero disabled, the elements
pass through untouched. -/
theorem hero_strip_amended (elements : List PageElement) :
    render_home_elements true elements = heroStripAmended elements ∧
    render_home_elements false elements = elements := by
  refine ⟨?_, rfl⟩
  show heroRetain elements false false = heroStripAmended elements
  induction elements with
  | nil => rfl
  | cons e rest ih =>
      cases e with
      | Heading level c =>
          by_cases hl : level = 1
          · simp [heroRetain, heroStripAmended, hl, heroRetain_tf]
          · simp [heroRetain, heroStripAmended, hl, ih]
      | Paragraph c => simp [heroRetain, heroStripAmended, ih]
      | CodeBlock lang c => simp [heroRetain, heroStripAmended, ih]
      | List items o => simp [heroRetain, heroStripAmended, ih]
      | BlockQuote c => simp [heroRetain, heroStripAmended, ih]
      | Table hs rs => simp [heroRetain, heroStripAmended, ih]
      | HorizontalRule => simp [heroRetain, heroStripAmended, ih]
      | Html c => simp [heroRetain, heroStripAmended, ih]

/-- Witness for C2's amended theorem at a concrete home page. -/
theorem hero_strip_amended_witness :
    render_home_elements true
        [.Heading 1 [.Text "t"], .Paragraph [.Text "p"], .Paragraph [.Text "q"]] =
      heroStripAmended
        [.Heading 1 [.Text "t"], .Paragraph [.Text "p"], .Paragraph [.Text "q"]] :=
  (hero_strip_amended _).1

/-! The slug generator. -/

/-- Modelled from the spec: `slugify` is called as
`crate::markdown::slugify` from `builder.rs`, but its definition is not
under `src/`.  Per §4.2 it maps a character to its lowercase form when
alphanumeric and to a hyphen otherwise. -/
def slugChar (c : Char) : Char :=
  if c.isAlphanum then c.toLower else '-'

/-- Collapse every run of adjacent hyphens to a single hyphen. -/
def squeezeHyphens : List Char → List Char
  | [] => []
  | [c] => [c]
  | c :: d :: rest =>
      if c = '-' ∧ d = '-' then squeezeHyphens (d :: rest)
      else c :: squeezeHyphens (d :: rest)

/-- Drop leading and trailing hyphens. -/
def trimHyphens (l : List Char) : List Char :=
  ((l.dropWhile fun c => c == '-').reverse.dropWhile fun c => c == '-').reverse

/-- Modelled from the spec: the slug generator — lowercase, non-alphanumeric
runs collapsed to a single hyphen, leading/trailing hyphens trimmed; a pure
function of the heading text. -/
def slugify (s : String) : String :=
  ⟨trimHyphens (squeezeHyphens (s.data.map slugChar))⟩

theorem squeezeHyphens_mem {l : List Char} {c : Char}
    (h : c ∈ squeezeHyphens l) : c ∈ l := by
  induction l with
  | nil => cases h
  | cons a rest ih =>
      cases rest with
      | nil => simpa [squeezeHyphens] using h
      | cons d r =>
          simp only [squeezeHyphens] at h
          split at h
          · exact List.mem_cons_of_mem _ (ih h)
          · rcases List.mem_cons.mp h with rfl | hm
            · exact List.mem_cons_self _ _
            · exact List.mem_cons_of_mem _ (ih hm)

theorem dropWhile_adds_nothing {p : Char → Bool} (l : List Char) :
    ∃ t, t ++ l.dropWhile p = l := by
  induction l with
  | nil => exact ⟨[], rfl⟩
  | cons a rest ih =>
      by_cases ha : p a
      · rcases ih with ⟨t, ht⟩
        refine ⟨a :: t, ?_⟩
        simp only [List.dropWhile, ha]
        simp [ht]
      · refine ⟨[], ?_⟩
        simp [List.dropWhile, ha]

theorem dropWhile_head {p : Char → Bool} {l : List Char} {a : Char}
    (h : (l.dropWhile p).head? = some a) : p a = false := by
  induction l with
  | nil => cases h
  | cons b rest ih =>
      by_cases hb : p b
      · rw [List.dropWhile_cons_of_pos hb] at h
        exact ih h
      · rw [List.dropWhile_cons_of_neg hb] at h
        cases h
        simpa using hb

theorem trimHyphens_mem {l : List Char} {c : Char} (h : c ∈ trimHyphens l) :
    c ∈ l := by
  unfold trimHyphens at h
  rw [List.mem_reverse] at h
  rcases dropWhile_adds_nothing ((l.dropWhile fun c => c == '-').reverse) with ⟨t, ht⟩
  have h1 : c ∈ (l.dropWhile fun c => c == '-').reverse := by
    rw [← ht]
    exact List.mem_append_right _ h
  rw [List.mem_reverse] at h1
  rcases dropWhile_adds_nothing l with ⟨u, hu⟩
  rw [← hu]
  exact List.mem_append_right _ h1

theorem squeezeHyphens_head :
    ∀ (rest : List Char) (d : Char),
      (squeezeHyphens (d :: rest)).head? = some d := by
  intro rest
  induction rest with
  | nil => intro d; rfl
  | cons e r ih =>
      intro d
      by_cases h : d = '-' ∧ e = '-'
      · simp only [squeezeHyphens, if_pos h]
        rw [ih e, h.1, h.2]
      · simp only [squeezeHyphens, if_neg h]
        rfl

theorem squeezeHyphens_no_dd :
    ∀ l : List Char, ¬ ['-', '-'] <:+: squeezeHyphens l := by
  intro l
  induction l with
  | nil =>
      rintro ⟨u, v, huv⟩
      cases u <;> cases huv
  | cons a rest ih =>
      cases rest with
      | nil =>
          rintro ⟨u, v, huv⟩
          simp only [squeezeHyphens] at huv
          cases u with
          | nil => cases huv
          | cons x xs => cases xs <;> cases huv
      | cons d r =>
          intro h
          have ihd : ¬ ['-', '-'] <:+: squeezeHyphens (d :: r) := ih
          simp only [squeezeHyphens] at h
          split at h
          · exact ihd h
          · next hneg =>
              rcases occ_cons_elim h with hpre | hinf
              · rcases hpre with ⟨u, hu⟩
                injection hu with h₁ h₂
                have hd : (squeezeHyphens (d :: r)).head? = some '-' := by
                  rw [← h₂]
                  rfl
                rw [squeezeHyphens_head] at hd
                cases hd
                exact hneg ⟨h₁.symm, rfl⟩
              · exact ihd hinf

theorem trim_no_dd {l : List Char} (h : ¬ ['-', '-'] <:+: l) :
    ¬ ['-', '-'] <:+: trimHyphens l := by
  intro hc
  unfold trimHyphens at hc
  rw [show (['-', '-'] : List Char) = ['-', '-'].reverse from rfl] at hc
  rw [ List.reverse_infix] at hc
  rcases dropWhile_adds_nothing ((l.dropWhile fun c => c == '-').reverse) with ⟨t, ht⟩
  have h1 : ['-', '-'] <:+: (l.dropWhile fun c => c == '-').reverse := by
    rw [← ht]
    exact occ_append_left t hc
  rw [show (['-', '-'] : List Char) = ['-', '-'].reverse from rfl] at h1
  rw [ List.reverse_infix] at h1
  rcases dropWhile_adds_nothing l with ⟨u, hu⟩
  exact h (by rw [← hu]; exact occ_append_left u h1)

theorem trimHyphens_pref (l : List Char) :
    trimHyphens l <+: l.dropWhile fun c => c == '-' := by
  rcases dropWhile_adds_nothing ((l.dropWhile fun c => c == '-').reverse) with ⟨t, ht⟩
  refine ⟨t.reverse, ?_⟩
  have := congrArg List.reverse ht
  simpa [List.reverse_append] using this

theorem slugify_head {s : String} {c : Char}
    (h : (slugify s).data.head? = some c) : c ≠ '-' := by
  have hp := trimHyphens_pref (squeezeHyphens (s.data.map slugChar))
  rcases hp with ⟨t, ht⟩
  have hdrop :
      ((squeezeHyphens (s.data.map slugChar)).dropWhile
        fun c => c == '-').head? = some c := by
    rw [← ht]
    cases hf : (slugify s).data with
    | nil => rw [hf] at h; cases h
    | cons a f' =>
        rw [hf] at h
        rw [List.head?_cons] at h
        injection h with hac
        subst hac
        have h2 : trimHyphens (squeezeHyphens (s.data.map slugChar)) = a :: f' := hf
        rw [h2]
        rfl
  have := dropWhile_head hdrop
  simpa using this

theorem slugify_last {s : String} {c : Char}
    (h : (slugify s).data.getLast? = some c) : c ≠ '-' := by
  have hl : (slugify s).data.getLast? =
      (((squeezeHyphens (s.data.map slugChar)).dropWhile
          fun c => c == '-').reverse.dropWhile fun c => c == '-').head? := by
    show (trimHyphens (squeezeHyphens (s.data.map slugChar))).getLast? = _
    unfold trimHyphens
    rw [List.getLast?_reverse]
  rw [hl] at h
  have := dropWhile_head h
  simpa using this

/-- Claim C4 (spec-modelled, `slugify` is not under `src/`): the slug
generator is a pure function whose output consists only of hyphens and
lowercased alphanumeric input characters, contains no run of two hyphens,
and neither starts nor ends with a hyphen; on `"Getting Started!"` it
produces `"getting-started"`. -/
theorem slugify_spec :
    slugify "Getting Started!" = "getting-started" ∧
    (∀ s : String, ∀ c ∈ (slugify s).data,
      c = '-' ∨ ∃ a : Char, a.isAlphanum = true ∧ c = a.toLower) ∧
    (∀ s : String, ¬ ['-', '-'] <:+: (slugify s).data) ∧
    (∀ s : String, (slugify s).data.head? ≠ some '-' ∧
      (slugify s).data.getLast? ≠ some '-') := by
  refine ⟨by decide, ?_, ?_, ?_⟩
  · intro s c hc
    have h1 : c ∈ squeezeHyphens (s.data.map slugChar) := trimHyphens_mem hc
    have h2 : c ∈ s.data.map slugChar := squeezeHyphens_mem h1
    rcases List.mem_map.mp h2 with ⟨a, _, rfl⟩
    unfold slugChar
    by_cases ha : a.isAlphanum
    · exact Or.inr ⟨a, ha, by rw [if_pos ha]⟩
    · exact Or.inl (by rw [if_neg ha])
  · intro s
    exact trim_no_dd (squeezeHyphens_no_dd _)
  · intro s
    exact ⟨fun h => slugify_head h rfl, fun h => slugify_last h rfl⟩

/-- Witness for C4 at concrete headings. -/
theorem slugify_spec_witness :
    slugify "Getting Started!" = "getting-started" ∧
    ¬ ['-', '-'] <:+: (slugify "A  B").data ∧
    (slugify "--x--").data.head? ≠ some '-' :=
  ⟨slugify_spec.1, slugify_spec.2.2.1 _, (slugify_spec.2.2.2 _).1⟩

end Zap
